import Mathlib

/-!
Verification development for the structural schema validator and
discriminated-variant dispatcher of the TypeScript training repository.

The repository declares its schemas (superstruct `object`, `string`,
`number`, `optional`, `record`, `array`, `union`) and its callers in
`src/sections/06-runtime-validation.ts`; the validator engine itself is the
external superstruct library, so the engine is modelled here from the
specification (section 4.2 of the spec).  The property-presence guards,
`createSafeNotification`, `sendMessage` and `batchArray` are translated
directly from the repository sources.
-/

/-- One step of a violation path: a named field or a sequence index. -/
inductive PathElem where
  | field (name : String)
  | idx (i : Nat)
deriving DecidableEq, Repr

/-- A Path Violation: (path, expected-kind, actual-kind-or-value) triple. -/
structure Violation where
  path : List PathElem
  expected : String
  actual : String
deriving DecidableEq, Repr

/-- A dynamically-typed runtime value, conceptually parsed JSON plus
`undefined`, with object keys in discovery order. -/
inductive JsValue where
  | str (s : String)
  | num (n : Int)
  | bool (b : Bool)
  | null
  | undefined
  | obj (fields : List (String × JsValue))
  | arr (elems : List JsValue)

/-- Run-time kind name of a value, as reported in violations. -/
def kindOf : JsValue → String
  | .str _ => "string"
  | .num _ => "number"
  | .bool _ => "boolean"
  | .null => "null"
  | .undefined => "undefined"
  | .obj _ => "object"
  | .arr _ => "array"

/-- Whether a value is `undefined`. -/
def JsValue.isUndefined : JsValue → Bool
  | .undefined => true
  | _ => false

/-- First-match lookup of a key in an object's field list. -/
def lookupField : List (String × JsValue) → String → Option JsValue
  | [], _ => none
  | (k, w) :: rest, n => if k = n then some w else lookupField rest n

/-- Primitive kinds of the Shape Descriptor model. -/
inductive PrimKind where
  | str
  | num
  | bool
deriving DecidableEq, Repr

/-- Kind name of a primitive descriptor. -/
def primName : PrimKind → String
  | .str => "string"
  | .num => "number"
  | .bool => "boolean"

/-- Modelled from the spec: the Shape Descriptor data model (spec section 3),
which the repository only exercises through the superstruct combinators
`string`, `number`, `optional`, `object`, `record`, `array` and `union`. -/
inductive Shape where
  | primitive (k : PrimKind)
  | optional (inner : Shape)
  | object (fields : List (String × Shape))
  | mapping (keyShape valueShape : Shape)
  | sequence (elem : Shape)
  | union (members : List (String × Shape))

/-- Whether a descriptor is the `Optional` wrapper. -/
def Shape.isOpt : Shape → Bool
  | .optional _ => true
  | _ => false

/-- Top-level kind label of a descriptor, used as the expected kind of a
missing-field violation. -/
def Shape.kindLabel : Shape → String
  | .primitive k => primName k
  | .optional _ => "optional"
  | .object _ => "object"
  | .mapping _ _ => "record"
  | .sequence _ => "array"
  | .union _ => "union"

/-- Prepend one path step to a violation, used when failures propagate out
of a nested field or element. -/
def pushPath (p : PathElem) (w : Violation) : Violation :=
  { w with path := p :: w.path }

/-- Lexicographic order on character lists by code point. -/
def charsLe : List Char → List Char → Bool
  | [], _ => true
  | _ :: _, [] => false
  | c :: cs, d :: ds =>
    if c.toNat < d.toNat then true
    else if d.toNat < c.toNat then false
    else charsLe cs ds

/-- Lexicographic order on strings by code point. -/
def strLe (a b : String) : Bool := charsLe a.data b.data

/-- Insert an object entry into a key-sorted list of entries. -/
def insertByKey (p : String × JsValue) : List (String × JsValue) → List (String × JsValue)
  | [] => [p]
  | q :: rest => if strLe p.1 q.1 then p :: q :: rest else q :: insertByKey p rest

/-- Sort an object's entries lexicographically by key, so that mapping
violations are emitted deterministically (spec section 4.2, Mapping check). -/
def sortByKey : List (String × JsValue) → List (String × JsValue)
  | [] => []
  | p :: rest => insertByKey p (sortByKey rest)

/-- Concatenate two fallible violation lists, propagating the first loud
error. -/
def vcat : Except String (List Violation) → Except String (List Violation) →
    Except String (List Violation)
  | .error e, _ => .error e
  | .ok _, .error e => .error e
  | .ok h, .ok t => .ok (h ++ t)

/-- Modelled from the spec: the Object check of the Validator Engine.  Each
declared field is looked up by name in declaration order; a missing required
field yields one violation with actual kind `missing`; present fields are
validated by the supplied engine `rec` with the field name prepended to the
path; undeclared keys are never inspected.  All field violations are
collected without short-circuiting. -/
def fieldsCheck (rec : JsValue → Shape → Except String (List Violation))
    (kvs : List (String × JsValue)) :
    List (String × Shape) → Except String (List Violation)
  | [] => .ok []
  | (n, fsh) :: rest =>
    vcat
      (match lookupField kvs n with
        | none =>
          if fsh.isOpt then .ok [] else
            .ok [⟨[.field n], fsh.kindLabel, "missing"⟩]
        | some w => (rec w fsh).map (List.map (pushPath (.field n))))
      (fieldsCheck rec kvs rest)

/-- Modelled from the spec: the Sequence check of the Validator Engine.
Every element is validated positionally; element violations are annotated
with their index and collected without short-circuiting. -/
def elemsCheck (rec : JsValue → Shape → Except String (List Violation))
    (e : Shape) : Nat → List JsValue → Except String (List Violation)
  | _, [] => .ok []
  | i, x :: xs =>
    vcat ((rec x e).map (List.map (pushPath (.idx i))))
      (elemsCheck rec e (i + 1) xs)

/-- Modelled from the spec: the Mapping check of the Validator Engine.
Every key must satisfy the key shape and every value the value shape;
entries are processed in lexicographic key order. -/
def entriesCheck (rec : JsValue → Shape → Except String (List Violation))
    (ks vs : Shape) : List (String × JsValue) → Except String (List Violation)
  | [] => .ok []
  | (k, w) :: rest =>
    vcat ((rec (.str k) ks).map (List.map (pushPath (.field k))))
      (vcat ((rec w vs).map (List.map (pushPath (.field k))))
        (entriesCheck rec ks vs rest))

/-- Modelled from the spec: the TaggedUnion check tries each member in
declared order and accepts the value at the first member whose shape fully
matches (structural fallback, as the repository's unions declare no
discriminant field). -/
def anyMember (rec : JsValue → Shape → Except String (List Violation))
    (v : JsValue) : List (String × Shape) → Except String Bool
  | [] => .ok false
  | (_, m) :: rest =>
    match rec v m with
    | .error e => .error e
    | .ok r => if r.isEmpty then .ok true else anyMember rec v rest

/-- Union failure message listing the tried member identifiers. -/
def unionExpected (members : List (String × Shape)) : String :=
  "one of " ++ String.intercalate (", ") (members.map Prod.fst)

/-- Modelled from the spec: one level of the Validator Engine, parameterized
by the engine `rec` used for nested shapes. -/
def validateStep (rec : JsValue → Shape → Except String (List Violation))
    (v : JsValue) : Shape → Except String (List Violation)
  | .primitive k =>
    .ok (if kindOf v = primName k then [] else [⟨[], primName k, kindOf v⟩])
  | .optional inner =>
    if v.isUndefined then .ok [] else rec v inner
  | .object fields =>
    match v with
    | .obj kvs => fieldsCheck rec kvs fields
    | _ => .ok [⟨[], "object", kindOf v⟩]
  | .mapping ks vs =>
    match v with
    | .obj kvs => entriesCheck rec ks vs (sortByKey kvs)
    | _ => .ok [⟨[], "record", kindOf v⟩]
  | .sequence e =>
    match v with
    | .arr xs => elemsCheck rec e 0 xs
    | _ => .ok [⟨[], "array", kindOf v⟩]
  | .union members =>
    match anyMember rec v members with
    | .error e => .error e
    | .ok true => .ok []
    | .ok false => .ok [⟨[], unionExpected members, kindOf v⟩]

/-- Modelled from the spec: the Validator Engine with its bounded recursion
depth guard (spec section 4.2, Overall): one unit of depth budget is spent
per nesting level of the descriptor, and exhausting the budget is the
programmer-error channel for cyclic or too-deep descriptors. -/
def validateG : Nat → JsValue → Shape → Except String (List Violation)
  | 0, _, _ => .error ("descriptor too deep")
  | d + 1, v, s => validateStep (validateG d) v s

/-- The process-wide depth bound of the engine. -/
def validateLimit : Nat := 1000000

/-- Modelled from the spec: `validate(raw_value, shape)`, returning either
an ordered sequence of Path Violations (empty on success) or, only for
descriptors exceeding the depth guard, a loud programmer error. -/
def validate (v : JsValue) (s : Shape) : Except String (List Violation) :=
  validateG validateLimit v s

/-- Schema for nested images, from `06-runtime-validation.ts` (`ImageSchema`). -/
def ImageSchema : Shape :=
  .object [("url", .primitive .str), ("width", .primitive .num),
           ("height", .primitive .num), ("caption", .primitive .str)]

/-- Schema for nested videos, from `06-runtime-validation.ts` (`VideoSchema`). -/
def VideoSchema : Shape :=
  .object [("url", .primitive .str), ("duration", .primitive .num),
           ("thumbnail", .primitive .str), ("title", .primitive .str)]

/-- Message schema, from `06-runtime-validation.ts` (`MessageSchema`). -/
def MessageSchema : Shape :=
  .object [("id", .primitive .str), ("sender", .primitive .str),
           ("text", .optional (.primitive .str)), ("timestamp", .primitive .num),
           ("reactions", .optional (.mapping (.primitive .str) (.primitive .num))),
           ("image", .optional ImageSchema), ("video", .optional VideoSchema)]

/-- Friend-request schema, from `06-runtime-validation.ts`. -/
def FriendRequestSchema : Shape :=
  .object [("id", .primitive .str), ("sender", .primitive .str),
           ("recipient", .primitive .str), ("status", .primitive .str)]

/-- New-message schema, from `06-runtime-validation.ts`. -/
def NewMessageSchema : Shape :=
  .object [("id", .primitive .str), ("sender", .primitive .str),
           ("text", .primitive .str), ("timestamp", .primitive .num)]

/-- Application-update schema, from `06-runtime-validation.ts`. -/
def ApplicationUpdateSchema : Shape :=
  .object [("newVersion", .primitive .str), ("releaseNotes", .primitive .str),
           ("downloadLink", .primitive .str)]

/-- Notification schema, from `06-runtime-validation.ts`: a structural union
of the three notification shapes in declaration order. -/
def NotificationSchema : Shape :=
  .union [("FriendRequest", FriendRequestSchema),
          ("NewMessage", NewMessageSchema),
          ("ApplicationUpdate", ApplicationUpdateSchema)]

/-- ChatGPT response schema, from `06-runtime-validation.ts`
(`ChatGPTResponseDataType`). -/
def ChatGPTResponseDataType : Shape :=
  .object [("themes", .sequence (.object
    [("summary", .primitive .str), ("answerIds", .sequence (.primitive .num))]))]

/-- Specification-side conformance: every field required by the descriptor is
present in the value with the declared run-time kind, recursively through
nested objects, mappings and sequences (spec section 8, Soundness).  Stated
independently of the engine to serve as the refinement target. -/
inductive Conforms : JsValue → Shape → Prop
  | prim (v : JsValue) (k : PrimKind) : kindOf v = primName k → Conforms v (.primitive k)
  | optAbsent (inner : Shape) : Conforms .undefined (.optional inner)
  | optInner (v : JsValue) (inner : Shape) :
      Conforms v inner → Conforms v (.optional inner)
  | obj (kvs : List (String × JsValue)) (fields : List (String × Shape)) :
      (∀ n fsh, (n, fsh) ∈ fields → lookupField kvs n = none → fsh.isOpt = true) →
      (∀ n fsh w, (n, fsh) ∈ fields → lookupField kvs n = some w → Conforms w fsh) →
      Conforms (.obj kvs) (.object fields)
  | map (kvs : List (String × JsValue)) (ks vs : Shape) :
      (∀ k w, (k, w) ∈ kvs → Conforms (.str k) ks) →
      (∀ k w, (k, w) ∈ kvs → Conforms w vs) →
      Conforms (.obj kvs) (.mapping ks vs)
  | seq (xs : List JsValue) (e : Shape) :
      (∀ x ∈ xs, Conforms x e) → Conforms (.arr xs) (.sequence e)
  | union (v : JsValue) (members : List (String × Shape)) (t : String) (m : Shape) :
      (t, m) ∈ members → Conforms v m → Conforms v (.union members)

/-- JavaScript `key in value` test, from the property-presence guards in
`06-runtime-validation.ts`. -/
def jsIn (k : String) (v : JsValue) : Bool :=
  match v with
  | .obj kvs => (lookupField kvs k).isSome
  | _ => false

/-- JavaScript `typeof` operator result. -/
def jsTypeof : JsValue → String
  | .str _ => "string"
  | .num _ => "number"
  | .bool _ => "boolean"
  | .null => "object"
  | .undefined => "undefined"
  | .obj _ => "object"
  | .arr _ => "object"

/-- JavaScript property access `value.key`, yielding `undefined` when the
key is absent. -/
def getProp (v : JsValue) (k : String) : JsValue :=
  match v with
  | .obj kvs => (lookupField kvs k).getD .undefined
  | _ => .undefined

/-- Template-literal rendering of a value, as used by the notification
strings in `06-runtime-validation.ts`. -/
def jsDisplay : JsValue → String
  | .str s => s
  | .num n => toString n
  | .bool b => if b then "true" else "false"
  | .null => "null"
  | .undefined => "undefined"
  | .obj _ => "[object Object]"
  | .arr _ => ""

/-- Property-based guard `isTextMessage` from `06-runtime-validation.ts`:
`"text" in message`. -/
def isTextMessage (message : JsValue) : Bool := jsIn ("text") message

/-- Property-based guard `isImageMessage` from `06-runtime-validation.ts`. -/
def isImageMessage (message : JsValue) : Bool :=
  jsIn ("imageUrl") message && jsTypeof (getProp message ("imageUrl")) == "string" &&
  jsIn ("width") message && jsTypeof (getProp message ("width")) == "number" &&
  jsIn ("height") message && jsTypeof (getProp message ("height")) == "number"

/-- Property-based guard `isVideoMessage` from `06-runtime-validation.ts`. -/
def isVideoMessage (message : JsValue) : Bool :=
  jsIn ("videoUrl") message && jsTypeof (getProp message ("videoUrl")) == "string" &&
  jsIn ("duration") message && jsTypeof (getProp message ("duration")) == "number"

/-- Integer value of a numeric property, as read after a `typeof ... ===
"number"` guard. -/
def getNum (v : JsValue) (k : String) : Int :=
  match getProp v k with
  | .num n => n
  | _ => 0

/-- `createSafeNotification` from `06-runtime-validation.ts`: the guard
cascade in source order (text, then image, then video); the final
`throw new Error("Unknown message type")` is modelled as `none`. -/
def createSafeNotification (message : JsValue) : Option String :=
  if isTextMessage message then
    some (jsDisplay (getProp message ("sender")) ++ " texted \"" ++
          jsDisplay (getProp message ("text")) ++ "\"")
  else if isImageMessage message then
    some (jsDisplay (getProp message ("sender")) ++ " sent an image (" ++
          jsDisplay (getProp message ("width")) ++ "x" ++
          jsDisplay (getProp message ("height")) ++ ")")
  else if isVideoMessage message then
    some (jsDisplay (getProp message ("sender")) ++ " sent a video (" ++
          toString (Int.fdiv (getNum message ("duration")) 60) ++ ":" ++
          toString (Int.tmod (getNum message ("duration")) 60) ++ ")")
  else
    none

/-- The variant tag selected by the guard cascade of
`createSafeNotification`, in its source order. -/
def classifyMessage (message : JsValue) : Option String :=
  if isTextMessage message then some ("text")
  else if isImageMessage message then some ("image")
  else if isVideoMessage message then some ("video")
  else none

/-- Well-formed `TextMessage` value: all fields of the `TextMessage`
interface in `06-runtime-validation.ts` present with the declared kinds. -/
def wfTextMessage (m : JsValue) : Bool :=
  jsTypeof (getProp m ("id")) == "string" && jsTypeof (getProp m ("sender")) == "string" &&
  jsTypeof (getProp m ("timestamp")) == "number" && jsTypeof (getProp m ("text")) == "string"

/-- Well-formed `ImageMessage` value: all fields of the `ImageMessage`
interface in `06-runtime-validation.ts` present with the declared kinds. -/
def wfImageMessage (m : JsValue) : Bool :=
  jsTypeof (getProp m ("id")) == "string" && jsTypeof (getProp m ("sender")) == "string" &&
  jsTypeof (getProp m ("timestamp")) == "number" && jsTypeof (getProp m ("imageUrl")) == "string" &&
  jsTypeof (getProp m ("width")) == "number" && jsTypeof (getProp m ("height")) == "number"

/-- Well-formed `VideoMessage` value: all fields of the `VideoMessage`
interface in `06-runtime-validation.ts` present with the declared kinds. -/
def wfVideoMessage (m : JsValue) : Bool :=
  jsTypeof (getProp m ("id")) == "string" && jsTypeof (getProp m ("sender")) == "string" &&
  jsTypeof (getProp m ("timestamp")) == "number" && jsTypeof (getProp m ("videoUrl")) == "string" &&
  jsTypeof (getProp m ("duration")) == "number"

namespace Overloads

/-- The `Message` union of `08-function-overloads.ts`: text, image and video
messages, each with the fields of its interface (`recipient` from
`BaseMessage`, plus the variant-specific fields). -/
inductive Message where
  | text (recipient : String) (text : String)
  | image (recipient : String) (imageUrl : String) (caption : Option String)
  | video (recipient : String) (videoUrl : String) (duration : Int)
      (thumbnail : Option String)

/-- The `type` discriminant of a message. -/
def Message.mtype : Message → String
  | .text .. => "text"
  | .image .. => "image"
  | .video .. => "video"

/-- `BaseResponse` of `08-function-overloads.ts`. -/
structure BaseResponse where
  id : String
  timestamp : Int
  deliveryStatus : String

/-- The response union of `08-function-overloads.ts`: `TextResponse`,
`ImageResponse` and `VideoResponse`, each with its `content` fields. -/
inductive Response where
  | text (base : BaseResponse) (text : String)
  | image (base : BaseResponse) (imageUrl : String) (uploadStatus : String)
      (progress : Option Int)
  | video (base : BaseResponse) (videoUrl : String) (processingStatus : String)
      (thumbnail : Option String)

/-- The `type` discriminant of a response. -/
def Response.rtype : Response → String
  | .text .. => "text"
  | .image .. => "image"
  | .video .. => "video"

/-- `sendMessage` of `08-function-overloads.ts`.  The generated id and the
`Date.now()` timestamp are external inputs, passed explicitly; the `fetch`
side effect belongs to the external collaborator and carries no result.
The `switch` on `message.type` covers every declared tag with no default. -/
def sendMessage (id : String) (timestamp : Int) : Message → Response
  | .text _ t => .text ⟨id, timestamp, "sent"⟩ t
  | .image _ url _ => .image ⟨id, timestamp, "sent"⟩ url ("complete") (some 100)
  | .video _ url _ thumb => .video ⟨id, timestamp, "sent"⟩ url ("processing") thumb

end Overloads

/-- JavaScript `Array.prototype.slice(b, e)`: negative indices count from
the end, both bounds are clamped to the array length. -/
def jsSlice (a : List α) (b e : Int) : List α :=
  let len : Int := a.length
  let rb : Int := if b < 0 then max (len + b) 0 else min b len
  let re : Int := if e < 0 then max (len + e) 0 else min e len
  ((a.drop rb.toNat).take (re - rb).toNat)

/-- The loop of `batchArray` in `07-generic-functions.ts`:
`for (let i = 0; i < array.length; i += maxBatchSize)` pushing
`array.slice(i, i + maxBatchSize)`.  The loop is modelled with explicit
fuel; `none` means the fuel was exhausted before the loop finished. -/
def batchLoop (a : List α) (step : Int) :
    Nat → Int → List (List α) → Option (List (List α))
  | 0, _, _ => none
  | fuel + 1, i, acc =>
    if i < (a.length : Int) then
      batchLoop a step fuel (i + step) (acc ++ [jsSlice a i (i + step)])
    else
      some acc

/-- `batchArray` of `07-generic-functions.ts`, with explicit fuel for the
loop. -/
def batchArray (a : List α) (maxBatchSize : Int) (fuel : Nat) :
    Option (List (List α)) :=
  batchLoop a maxBatchSize fuel 0 []

/-- A value's `isUndefined` test holds exactly for `undefined`. -/
lemma isUndefined_iff (v : JsValue) : v.isUndefined = true ↔ v = .undefined := by
  cases v <;> simp [JsValue.isUndefined]

/-- `vcat` succeeds with the empty list iff both halves do. -/
lemma vcat_eq_ok_nil (x y : Except String (List Violation)) :
    vcat x y = .ok [] ↔ x = .ok [] ∧ y = .ok [] := by
  cases x with
  | error e => simp [vcat]
  | ok h =>
    cases y with
    | error e => simp [vcat]
    | ok t => simp [vcat]

/-- `vcat` succeeds iff both halves succeed, and the results concatenate. -/
lemma vcat_eq_ok (x y : Except String (List Violation)) (l : List Violation) :
    vcat x y = .ok l ↔ ∃ h t, x = .ok h ∧ y = .ok t ∧ l = h ++ t := by
  cases x with
  | error e => simp [vcat]
  | ok h =>
    cases y with
    | error e => simp [vcat]
    | ok t =>
      simp only [vcat, Except.ok.injEq]
      constructor
      · intro hl
        exact ⟨h, t, rfl, rfl, hl.symm⟩
      · rintro ⟨h', t', hh, ht, hl⟩
        cases hh
        cases ht
        exact hl.symm

/-- `vcat` of two successes is a success. -/
lemma vcat_ok_of_ok {x y : Except String (List Violation)}
    (hx : ∃ r, x = .ok r) (hy : ∃ r, y = .ok r) : ∃ r, vcat x y = .ok r := by
  obtain ⟨rx, hx⟩ := hx
  obtain ⟨ry, hy⟩ := hy
  exact ⟨rx ++ ry, by rw [hx, hy]; rfl⟩

/-- Membership is preserved by sorted insertion. -/
lemma mem_insertByKey (p q : String × JsValue) (l : List (String × JsValue)) :
    q ∈ insertByKey p l ↔ q = p ∨ q ∈ l := by
  induction l with
  | nil => simp [insertByKey]
  | cons a rest ih =>
    by_cases hle : strLe p.1 a.1
    · simp only [insertByKey, hle, if_true, List.mem_cons]
      try tauto
    · simp only [insertByKey, hle, if_false, Bool.false_eq_true, List.mem_cons, ih]
      try tauto

/-- Sorting by key does not change the entries of an object. -/
lemma mem_sortByKey (q : String × JsValue) (l : List (String × JsValue)) :
    q ∈ sortByKey l ↔ q ∈ l := by
  induction l with
  | nil => simp [sortByKey]
  | cons a rest ih =>
    simp [sortByKey, mem_insertByKey, ih]

/-- The shape of a declared field is smaller than the field list. -/
lemma sizeOf_lt_of_mem_pairs {n : String} {fsh : Shape}
    {l : List (String × Shape)} (h : (n, fsh) ∈ l) : sizeOf fsh < sizeOf l := by
  induction l with
  | nil => cases h
  | cons a rest ih =>
    rcases List.mem_cons.mp h with heq | hmem
    · cases heq
      simp
      omega
    · have := ih hmem
      simp
      omega

/-- The shape of a declared field is smaller than its `Object` descriptor. -/
lemma sizeOf_field_lt {n : String} {fsh : Shape} {fields : List (String × Shape)}
    (h : (n, fsh) ∈ fields) : sizeOf fsh < sizeOf (Shape.object fields) := by
  have := sizeOf_lt_of_mem_pairs h
  simp
  omega

/-- The shape of a union member is smaller than its `TaggedUnion`
descriptor. -/
lemma sizeOf_member_lt {t : String} {m : Shape} {members : List (String × Shape)}
    (h : (t, m) ∈ members) : sizeOf m < sizeOf (Shape.union members) := by
  have := sizeOf_lt_of_mem_pairs h
  simp
  omega

/-- The Object check succeeds whenever the engine succeeds on every declared
field shape. -/
lemma fieldsCheck_total (rec : JsValue → Shape → Except String (List Violation))
    (kvs : List (String × JsValue)) (fields : List (String × Shape))
    (h : ∀ n fsh, (n, fsh) ∈ fields → ∀ w, ∃ r, rec w fsh = .ok r) :
    ∃ r, fieldsCheck rec kvs fields = .ok r := by
  induction fields with
  | nil => exact ⟨[], rfl⟩
  | cons a rest ih =>
    obtain ⟨n, fsh⟩ := a
    have htl := ih (fun n' fsh' hmem w => h n' fsh' (List.mem_cons_of_mem _ hmem) w)
    rw [fieldsCheck]
    apply vcat_ok_of_ok _ htl
    cases hlk : lookupField kvs n with
    | none =>
      by_cases hopt : fsh.isOpt <;> simp [hopt]
    | some w =>
      obtain ⟨r, hr⟩ := h n fsh (List.mem_cons_self _ _) w
      refine ⟨r.map (pushPath (.field n)), ?_⟩
      simp [hr, Except.map]

/-- The Sequence check succeeds whenever the engine succeeds on the element
shape for every value. -/
lemma elemsCheck_total (rec : JsValue → Shape → Except String (List Violation))
    (e : Shape) (h : ∀ w, ∃ r, rec w e = .ok r) :
    ∀ (i : Nat) (xs : List JsValue), ∃ r, elemsCheck rec e i xs = .ok r := by
  intro i xs
  induction xs generalizing i with
  | nil => exact ⟨[], rfl⟩
  | cons x rest ih =>
    rw [elemsCheck]
    apply vcat_ok_of_ok _ (ih (i + 1))
    obtain ⟨r, hr⟩ := h x
    exact ⟨r.map (pushPath (.idx i)), by rw [hr]; rfl⟩

/-- The Mapping check succeeds whenever the engine succeeds on the key and
value shapes for every value. -/
lemma entriesCheck_total (rec : JsValue → Shape → Except String (List Violation))
    (ks vs : Shape) (hk : ∀ w, ∃ r, rec w ks = .ok r)
    (hv : ∀ w, ∃ r, rec w vs = .ok r) :
    ∀ kvs : List (String × JsValue), ∃ r, entriesCheck rec ks vs kvs = .ok r := by
  intro kvs
  induction kvs with
  | nil => exact ⟨[], rfl⟩
  | cons a rest ih =>
    obtain ⟨k, w⟩ := a
    rw [entriesCheck]
    obtain ⟨rk, hrk⟩ := hk (.str k)
    obtain ⟨rv, hrv⟩ := hv w
    apply vcat_ok_of_ok ⟨rk.map (pushPath (.field k)), by rw [hrk]; rfl⟩
    exact vcat_ok_of_ok ⟨rv.map (pushPath (.field k)), by rw [hrv]; rfl⟩ ih

/-- The TaggedUnion check settles whenever the engine succeeds on every
member shape. -/
lemma anyMember_total (rec : JsValue → Shape → Except String (List Violation))
    (v : JsValue) (members : List (String × Shape))
    (h : ∀ t m, (t, m) ∈ members → ∀ w, ∃ r, rec w m = .ok r) :
    ∃ b, anyMember rec v members = .ok b := by
  induction members with
  | nil => exact ⟨false, rfl⟩
  | cons a rest ih =>
    obtain ⟨t, m⟩ := a
    obtain ⟨r, hr⟩ := h t m (List.mem_cons_self _ _) v
    rw [anyMember, hr]
    by_cases hemp : r.isEmpty
    · exact ⟨true, by simp [hemp]⟩
    · obtain ⟨b, hb⟩ := ih (fun t' m' hmem w => h t' m' (List.mem_cons_of_mem _ hmem) w)
      exact ⟨b, by simp [hemp, hb]⟩

/-- With fuel exceeding the descriptor's size, the engine never signals a
loud error: every input produces a violation list. -/
lemma validateG_total :
    ∀ (d : Nat) (v : JsValue) (s : Shape), sizeOf s < d →
    ∃ r, validateG d v s = .ok r := by
  intro d
  induction d with
  | zero => intro v s h; omega
  | succ n ih =>
    intro v s h
    cases s with
    | primitive k => exact ⟨_, rfl⟩
    | optional inner =>
      show ∃ r, (if v.isUndefined then Except.ok [] else validateG n v inner) = .ok r
      by_cases hu : v.isUndefined
      · simp [hu]
      · simp only [hu, Bool.false_eq_true, if_false]
        apply ih
        simp at h
        omega
    | object fields =>
      cases v with
      | obj kvs =>
        show ∃ r, fieldsCheck (validateG n) kvs fields = .ok r
        apply fieldsCheck_total
        intro n' fsh hmem w
        apply ih
        have := sizeOf_field_lt hmem
        omega
      | str s0 => exact ⟨_, rfl⟩
      | num n0 => exact ⟨_, rfl⟩
      | bool b0 => exact ⟨_, rfl⟩
      | null => exact ⟨_, rfl⟩
      | undefined => exact ⟨_, rfl⟩
      | arr xs => exact ⟨_, rfl⟩
    | mapping ks vs =>
      cases v with
      | obj kvs =>
        show ∃ r, entriesCheck (validateG n) ks vs (sortByKey kvs) = .ok r
        apply entriesCheck_total
        · intro w
          apply ih
          simp at h
          omega
        · intro w
          apply ih
          simp at h
          omega
      | str s0 => exact ⟨_, rfl⟩
      | num n0 => exact ⟨_, rfl⟩
      | bool b0 => exact ⟨_, rfl⟩
      | null => exact ⟨_, rfl⟩
      | undefined => exact ⟨_, rfl⟩
      | arr xs => exact ⟨_, rfl⟩
    | sequence e =>
      cases v with
      | arr xs =>
        show ∃ r, elemsCheck (validateG n) e 0 xs = .ok r
        apply elemsCheck_total
        intro w
        apply ih
        simp at h
        omega
      | str s0 => exact ⟨_, rfl⟩
      | num n0 => exact ⟨_, rfl⟩
      | bool b0 => exact ⟨_, rfl⟩
      | null => exact ⟨_, rfl⟩
      | undefined => exact ⟨_, rfl⟩
      | obj kvs => exact ⟨_, rfl⟩
    | union members =>
      obtain ⟨b, hb⟩ : ∃ b, anyMember (validateG n) v members = .ok b := by
        apply anyMember_total
        intro t m hmem w
        apply ih
        have := sizeOf_member_lt hmem
        omega
      show ∃ r, (match anyMember (validateG n) v members with
        | .error e => Except.error e
        | .ok true => Except.ok []
        | .ok false => Except.ok [(⟨[], unionExpected members, kindOf v⟩ : Violation)]) = .ok r
      rw [hb]
      cases b with
      | true => exact ⟨_, rfl⟩
      | false => exact ⟨_, rfl⟩

/-- The Object check only depends on the engine's behaviour on declared
field shapes. -/
lemma fieldsCheck_congr (rec₁ rec₂ : JsValue → Shape → Except String (List Violation))
    (kvs : List (String × JsValue)) (fields : List (String × Shape))
    (h : ∀ n fsh, (n, fsh) ∈ fields → ∀ w, rec₁ w fsh = rec₂ w fsh) :
    fieldsCheck rec₁ kvs fields = fieldsCheck rec₂ kvs fields := by
  induction fields with
  | nil => rfl
  | cons a rest ih =>
    obtain ⟨n, fsh⟩ := a
    rw [fieldsCheck, fieldsCheck,
      ih (fun n' fsh' hmem w => h n' fsh' (List.mem_cons_of_mem _ hmem) w)]
    cases hlk : lookupField kvs n with
    | none => rfl
    | some w => simp [h n fsh (List.mem_cons_self _ _) w]

/-- The Sequence check only depends on the engine's behaviour on the
element shape. -/
lemma elemsCheck_congr (rec₁ rec₂ : JsValue → Shape → Except String (List Violation))
    (e : Shape) (h : ∀ w, rec₁ w e = rec₂ w e) :
    ∀ (i : Nat) (xs : List JsValue), elemsCheck rec₁ e i xs = elemsCheck rec₂ e i xs := by
  intro i xs
  induction xs generalizing i with
  | nil => rfl
  | cons x rest ih => rw [elemsCheck, elemsCheck, h x, ih (i + 1)]

/-- The Mapping check only depends on the engine's behaviour on the key and
value shapes. -/
lemma entriesCheck_congr (rec₁ rec₂ : JsValue → Shape → Except String (List Violation))
    (ks vs : Shape) (hk : ∀ w, rec₁ w ks = rec₂ w ks)
    (hv : ∀ w, rec₁ w vs = rec₂ w vs) :
    ∀ kvs : List (String × JsValue), entriesCheck rec₁ ks vs kvs = entriesCheck rec₂ ks vs kvs := by
  intro kvs
  induction kvs with
  | nil => rfl
  | cons a rest ih =>
    obtain ⟨k, w⟩ := a
    rw [entriesCheck, entriesCheck, hk (.str k), hv w, ih]

/-- The TaggedUnion check only depends on the engine's behaviour on member
shapes. -/
lemma anyMember_congr (rec₁ rec₂ : JsValue → Shape → Except String (List Violation))
    (v : JsValue) (members : List (String × Shape))
    (h : ∀ t m, (t, m) ∈ members → ∀ w, rec₁ w m = rec₂ w m) :
    anyMember rec₁ v members = anyMember rec₂ v members := by
  induction members with
  | nil => rfl
  | cons a rest ih =>
    obtain ⟨t, m⟩ := a
    rw [anyMember, anyMember, h t m (List.mem_cons_self _ _) v,
      ih (fun t' m' hmem w => h t' m' (List.mem_cons_of_mem _ hmem) w)]

/-- The engine's answer does not depend on the fuel, as long as the fuel
exceeds the descriptor's size. -/
lemma validateG_fuel :
    ∀ (d₁ d₂ : Nat) (v : JsValue) (s : Shape), sizeOf s < d₁ → sizeOf s < d₂ →
    validateG d₁ v s = validateG d₂ v s := by
  intro d₁
  induction d₁ with
  | zero => intro d₂ v s h1 h2; omega
  | succ n ih =>
    intro d₂ v s h1 h2
    cases d₂ with
    | zero => omega
    | succ m =>
      rw [validateG, validateG]
      cases s with
      | primitive k => rfl
      | optional inner =>
        show (if v.isUndefined then Except.ok [] else validateG n v inner) =
          (if v.isUndefined then Except.ok [] else validateG m v inner)
        by_cases hu : v.isUndefined
        · simp [hu]
        · simp only [hu, Bool.false_eq_true, if_false]
          apply ih
          · simp at h1; omega
          · simp at h2; omega
      | object fields =>
        cases v with
        | obj kvs =>
          show fieldsCheck (validateG n) kvs fields = fieldsCheck (validateG m) kvs fields
          apply fieldsCheck_congr
          intro n' fsh hmem w
          have := sizeOf_field_lt hmem
          exact ih m w fsh (by omega) (by omega)
        | str s0 => rfl
        | num n0 => rfl
        | bool b0 => rfl
        | null => rfl
        | undefined => rfl
        | arr xs => rfl
      | mapping ks vs =>
        cases v with
        | obj kvs =>
          show entriesCheck (validateG n) ks vs (sortByKey kvs) =
            entriesCheck (validateG m) ks vs (sortByKey kvs)
          apply entriesCheck_congr
          · intro w
            apply ih
            · simp at h1; omega
            · simp at h2; omega
          · intro w
            apply ih
            · simp at h1; omega
            · simp at h2; omega
        | str s0 => rfl
        | num n0 => rfl
        | bool b0 => rfl
        | null => rfl
        | undefined => rfl
        | arr xs => rfl
      | sequence e =>
        cases v with
        | arr xs =>
          show elemsCheck (validateG n) e 0 xs = elemsCheck (validateG m) e 0 xs
          apply elemsCheck_congr
          intro w
          apply ih
          · simp at h1; omega
          · simp at h2; omega
        | str s0 => rfl
        | num n0 => rfl
        | bool b0 => rfl
        | null => rfl
        | undefined => rfl
        | obj kvs => rfl
      | union members =>
        have hmem : anyMember (validateG n) v members = anyMember (validateG m) v members := by
          apply anyMember_congr
          intro t mm hm w
          have := sizeOf_member_lt hm
          exact ih m w mm (by omega) (by omega)
        show (match anyMember (validateG n) v members with
          | .error e => Except.error e
          | .ok true => Except.ok []
          | .ok false => Except.ok [(⟨[], unionExpected members, kindOf v⟩ : Violation)]) =
          (match anyMember (validateG m) v members with
          | .error e => Except.error e
          | .ok true => Except.ok []
          | .ok false => Except.ok [(⟨[], unionExpected members, kindOf v⟩ : Violation)])
        rw [hmem]

/-- A fully successful Object check means every declared field is either
optional and absent, or present and accepted by the engine. -/
lemma fieldsCheck_ok_nil (rec : JsValue → Shape → Except String (List Violation))
    (kvs : List (String × JsValue)) (fields : List (String × Shape))
    (h : fieldsCheck rec kvs fields = .ok []) :
    ∀ n fsh, (n, fsh) ∈ fields →
      (lookupField kvs n = none → fsh.isOpt = true) ∧
      (∀ w, lookupField kvs n = some w → rec w fsh = .ok []) := by
  induction fields with
  | nil => intro n fsh hmem; cases hmem
  | cons a rest ih =>
    obtain ⟨n0, fsh0⟩ := a
    rw [fieldsCheck, vcat_eq_ok_nil] at h
    obtain ⟨hhd, htl⟩ := h
    intro n fsh hmem
    rcases List.mem_cons.mp hmem with heq | hmem'
    · cases heq
      constructor
      · intro hlk
        rw [hlk] at hhd
        by_cases hopt : fsh0.isOpt
        · exact hopt
        · simp [hopt] at hhd
      · intro w hlk
        rw [hlk] at hhd
        cases hr : rec w fsh0 with
        | error e => simp [hr, Except.map] at hhd
        | ok r =>
          simp [hr, Except.map] at hhd
          rw [hhd]
    · exact ih htl n fsh hmem'

/-- A fully successful Sequence check means the engine accepts every
element. -/
lemma elemsCheck_ok_nil (rec : JsValue → Shape → Except String (List Violation))
    (e : Shape) :
    ∀ (i : Nat) (xs : List JsValue), elemsCheck rec e i xs = .ok [] →
    ∀ x ∈ xs, rec x e = .ok [] := by
  intro i xs
  induction xs generalizing i with
  | nil => intro _ x hx; cases hx
  | cons y rest ih =>
    intro h x hx
    rw [elemsCheck, vcat_eq_ok_nil] at h
    obtain ⟨hhd, htl⟩ := h
    rcases List.mem_cons.mp hx with heq | hmem
    · cases heq
      cases hr : rec y e with
      | error e0 => simp [hr, Except.map] at hhd
      | ok r =>
        simp [hr, Except.map] at hhd
        rw [hhd]
    · exact ih (i + 1) htl x hmem

/-- A fully successful Mapping check means the engine accepts every key and
every value. -/
lemma entriesCheck_ok_nil (rec : JsValue → Shape → Except String (List Violation))
    (ks vs : Shape) :
    ∀ kvs : List (String × JsValue), entriesCheck rec ks vs kvs = .ok [] →
    ∀ k w, (k, w) ∈ kvs → rec (.str k) ks = .ok [] ∧ rec w vs = .ok [] := by
  intro kvs
  induction kvs with
  | nil => intro _ k w hm; cases hm
  | cons a rest ih =>
    obtain ⟨k0, w0⟩ := a
    intro h k w hm
    rw [entriesCheck, vcat_eq_ok_nil] at h
    obtain ⟨hk0, h2⟩ := h
    rw [vcat_eq_ok_nil] at h2
    obtain ⟨hv0, htl⟩ := h2
    rcases List.mem_cons.mp hm with heq | hmem
    · cases heq
      constructor
      · cases hr : rec (.str k0) ks with
        | error e0 => simp [hr, Except.map] at hk0
        | ok r =>
          simp [hr, Except.map] at hk0
          rw [hk0]
      · cases hr : rec w0 vs with
        | error e0 => simp [hr, Except.map] at hv0
        | ok r =>
          simp [hr, Except.map] at hv0
          rw [hv0]
    · exact ih htl k w hmem

/-- An accepting TaggedUnion check exhibits an accepted member. -/
lemma anyMember_ok_true (rec : JsValue → Shape → Except String (List Violation))
    (v : JsValue) :
    ∀ members : List (String × Shape), anyMember rec v members = .ok true →
    ∃ t m, (t, m) ∈ members ∧ rec v m = .ok [] := by
  intro members
  induction members with
  | nil => intro h; simp [anyMember] at h
  | cons a rest ih =>
    obtain ⟨t0, m0⟩ := a
    intro h
    rw [anyMember] at h
    cases hr : rec v m0 with
    | error e0 => rw [hr] at h; simp at h
    | ok r =>
      rw [hr] at h
      by_cases hemp : r.isEmpty
      · refine ⟨t0, m0, List.mem_cons_self _ _, ?_⟩
        rw [hr, List.isEmpty_iff.mp hemp]
      · simp only [hemp, Bool.false_eq_true, if_false] at h
        obtain ⟨t, m, hmem, hm⟩ := ih h
        exact ⟨t, m, List.mem_cons_of_mem _ hmem, hm⟩

/-- An engine success with no violations implies specification-side
conformance, for any fuel. -/
lemma validateG_sound :
    ∀ (d : Nat) (v : JsValue) (s : Shape), validateG d v s = .ok [] →
    Conforms v s := by
  intro d
  induction d with
  | zero => intro v s h; simp [validateG] at h
  | succ n ih =>
    intro v s h
    cases s with
    | primitive k =>
      have h' : (if kindOf v = primName k then ([] : List Violation) else
          [⟨[], primName k, kindOf v⟩]) = [] := by
        exact Except.ok.inj h
      by_cases hk : kindOf v = primName k
      · exact Conforms.prim v k hk
      · simp [hk] at h'
    | optional inner =>
      have h' : (if v.isUndefined then Except.ok ([] : List Violation)
          else validateG n v inner) = .ok [] := h
      by_cases hu : v.isUndefined
      · rw [(isUndefined_iff v).mp hu]
        exact Conforms.optAbsent inner
      · simp only [hu, Bool.false_eq_true, if_false] at h'
        exact Conforms.optInner v inner (ih v inner h')
    | object fields =>
      cases v with
      | obj kvs =>
        have h' : fieldsCheck (validateG n) kvs fields = .ok [] := h
        have hall := fieldsCheck_ok_nil _ _ _ h'
        refine Conforms.obj kvs fields ?_ ?_
        · intro n' fsh hmem hlk
          exact (hall n' fsh hmem).1 hlk
        · intro n' fsh w hmem hlk
          exact ih w fsh ((hall n' fsh hmem).2 w hlk)
      | str s0 => exact absurd (Except.ok.inj h) (by simp)
      | num n0 => exact absurd (Except.ok.inj h) (by simp)
      | bool b0 => exact absurd (Except.ok.inj h) (by simp)
      | null => exact absurd (Except.ok.inj h) (by simp)
      | undefined => exact absurd (Except.ok.inj h) (by simp)
      | arr xs => exact absurd (Except.ok.inj h) (by simp)
    | mapping ks vs =>
      cases v with
      | obj kvs =>
        have h' : entriesCheck (validateG n) ks vs (sortByKey kvs) = .ok [] := h
        have hall := entriesCheck_ok_nil _ _ _ _ h'
        refine Conforms.map kvs ks vs ?_ ?_
        · intro k w hmem
          exact ih _ _ (hall k w ((mem_sortByKey (k, w) kvs).mpr hmem)).1
        · intro k w hmem
          exact ih _ _ (hall k w ((mem_sortByKey (k, w) kvs).mpr hmem)).2
      | str s0 => exact absurd (Except.ok.inj h) (by simp)
      | num n0 => exact absurd (Except.ok.inj h) (by simp)
      | bool b0 => exact absurd (Except.ok.inj h) (by simp)
      | null => exact absurd (Except.ok.inj h) (by simp)
      | undefined => exact absurd (Except.ok.inj h) (by simp)
      | arr xs => exact absurd (Except.ok.inj h) (by simp)
    | sequence e =>
      cases v with
      | arr xs =>
        have h' : elemsCheck (validateG n) e 0 xs = .ok [] := h
        exact Conforms.seq xs e (fun x hx => ih x e (elemsCheck_ok_nil _ _ 0 xs h' x hx))
      | str s0 => exact absurd (Except.ok.inj h) (by simp)
      | num n0 => exact absurd (Except.ok.inj h) (by simp)
      | bool b0 => exact absurd (Except.ok.inj h) (by simp)
      | null => exact absurd (Except.ok.inj h) (by simp)
      | undefined => exact absurd (Except.ok.inj h) (by simp)
      | obj kvs => exact absurd (Except.ok.inj h) (by simp)
    | union members =>
      have h' : (match anyMember (validateG n) v members with
        | .error e => Except.error e
        | .ok true => Except.ok ([] : List Violation)
        | .ok false =>
          Except.ok [(⟨[], unionExpected members, kindOf v⟩ : Violation)]) = .ok [] := h
      cases ha : anyMember (validateG n) v members with
      | error e0 => rw [ha] at h'; simp at h'
      | ok b =>
        cases b with
        | true =>
          obtain ⟨t, m, hmem, hm⟩ := anyMember_ok_true _ _ _ ha
          exact Conforms.union v members t m hmem (ih v m hm)
        | false => rw [ha] at h'; simp at h'

/-- Looking up a key absent from the appended entries is unaffected by the
append. -/
lemma lookupField_append (kvs extras : List (String × JsValue)) (n : String)
    (h : ∀ p ∈ extras, p.1 ≠ n) :
    lookupField (kvs ++ extras) n = lookupField kvs n := by
  induction kvs with
  | nil =>
    show lookupField extras n = none
    induction extras with
    | nil => rfl
    | cons q rest ih =>
      obtain ⟨qk, qv⟩ := q
      rw [lookupField]
      have hq : qk ≠ n := h (qk, qv) (List.mem_cons_self _ _)
      simp only [hq, if_false]
      exact ih (fun p hp => h p (List.mem_cons_of_mem _ hp))
  | cons a rest ih =>
    obtain ⟨ak, av⟩ := a
    rw [List.cons_append, lookupField, lookupField]
    by_cases hk : ak = n
    · simp [hk]
    · simp only [hk, if_false]
      exact ih

/-- The Object check never inspects keys that are not declared fields:
appending undeclared entries to the raw object leaves its outcome
unchanged. -/
lemma fieldsCheck_extras (rec : JsValue → Shape → Except String (List Violation))
    (kvs extras : List (String × JsValue)) (fields : List (String × Shape))
    (h : ∀ p ∈ extras, p.1 ∉ fields.map Prod.fst) :
    fieldsCheck rec (kvs ++ extras) fields = fieldsCheck rec kvs fields := by
  induction fields with
  | nil => rfl
  | cons a rest ih =>
    obtain ⟨n, fsh⟩ := a
    rw [fieldsCheck, fieldsCheck]
    have hlk : lookupField (kvs ++ extras) n = lookupField kvs n := by
      apply lookupField_append
      intro p hp hpn
      exact h p hp (by rw [List.map_cons, hpn]; exact List.mem_cons_self _ _)
    rw [hlk, ih (fun p hp hmem => h p hp (by rw [List.map_cons]; exact List.mem_cons_of_mem _ hmem))]

/-- The index, if any, heading a violation's path. -/
def headIdx? (w : Violation) : Option Nat :=
  match w.path with
  | .idx i :: _ => some i
  | _ => none

/-- An index-annotated violation's head index. -/
lemma headIdx_pushPath (i : Nat) (w : Violation) :
    headIdx? (pushPath (.idx i) w) = some i := rfl

/-- The Sequence check reports, for every element the engine rejects, at
least one violation annotated with that element's index. -/
lemma elemsCheck_reports (rec : JsValue → Shape → Except String (List Violation))
    (e : Shape) :
    ∀ (xs : List JsValue) (i : Nat) (l : List Violation),
    elemsCheck rec e i xs = .ok l →
    ∀ (j : Nat) (hj : j < xs.length) (lj : List Violation),
    rec (xs.get ⟨j, hj⟩) e = .ok lj → lj ≠ [] →
    ∃ w ∈ l, headIdx? w = some (i + j) := by
  intro xs
  induction xs with
  | nil => intro i l _ j hj; simp at hj
  | cons y rest ih =>
    intro i l h j hj lj hrec hne
    rw [elemsCheck, vcat_eq_ok] at h
    obtain ⟨hd, tl, hhd, htl, hl⟩ := h
    cases j with
    | zero =>
      have hy : rec y e = .ok lj := hrec
      rw [hy] at hhd
      simp [Except.map] at hhd
      obtain ⟨w0, hw0⟩ := List.exists_mem_of_ne_nil lj hne
      refine ⟨pushPath (.idx i) w0, ?_, ?_⟩
      · rw [hl, ← hhd]
        exact List.mem_append_left _ (List.mem_map_of_mem _ hw0)
      · rw [headIdx_pushPath]
        norm_num
    | succ j' =>
      have hj' : j' < rest.length := by
        simp at hj
        omega
      obtain ⟨w0, hw0, hidx⟩ := ih (i + 1) tl htl j' hj' lj hrec hne
      refine ⟨w0, ?_, ?_⟩
      · rw [hl]
        exact List.mem_append_right _ hw0
      · rw [hidx]
        congr 1
        omega

/-- Filtering with a constant `some` is mapping with a constant. -/
lemma filterMap_const_some (r : List Violation) (i : Nat) :
    List.filterMap (fun _ => some i) r = r.map (fun _ => i) := by
  induction r with
  | nil => rfl
  | cons a as ih => simp [List.filterMap_cons, ih]

/-- A constant list is sorted. -/
lemma sorted_map_const (r : List Violation) (i : Nat) :
    (r.map (fun _ => i)).Sorted (· ≤ ·) := by
  induction r with
  | nil => simp
  | cons a as ih =>
    rw [List.map_cons, List.sorted_cons]
    refine ⟨?_, ih⟩
    intro b hb
    obtain ⟨_, _, hbc⟩ := List.mem_map.mp hb
    omega

/-- The Sequence check emits index annotations in non-decreasing index
order, all at least the starting index. -/
lemma elemsCheck_sorted (rec : JsValue → Shape → Except String (List Violation))
    (e : Shape) :
    ∀ (xs : List JsValue) (i : Nat) (l : List Violation),
    elemsCheck rec e i xs = .ok l →
    (∀ m ∈ l.filterMap headIdx?, i ≤ m) ∧
    (l.filterMap headIdx?).Sorted (· ≤ ·) := by
  intro xs
  induction xs with
  | nil =>
    intro i l h
    have : l = [] := (Except.ok.inj h).symm
    simp [this]
  | cons y rest ih =>
    intro i l h
    rw [elemsCheck, vcat_eq_ok] at h
    obtain ⟨hd, tl, hhd, htl, hl⟩ := h
    obtain ⟨hge, hsorted⟩ := ih (i + 1) tl htl
    cases hr : rec y e with
    | error e0 => rw [hr] at hhd; simp [Except.map] at hhd
    | ok r =>
      rw [hr] at hhd
      simp [Except.map] at hhd
      have hfm : hd.filterMap headIdx? = r.map (fun _ => i) := by
        rw [← hhd, List.filterMap_map]
        have hcomp : (headIdx? ∘ pushPath (.idx i)) = fun w => some i := by
          funext w
          exact headIdx_pushPath i w
        rw [hcomp]
        exact filterMap_const_some r i
      rw [hl, List.filterMap_append, hfm]
      constructor
      · intro m hm
        rcases List.mem_append.mp hm with hmm | hmm
        · obtain ⟨_, _, hmi⟩ := List.mem_map.mp hmm
          omega
        · have := hge m hmm
          omega
      · rw [List.Sorted, List.pairwise_append]
        refine ⟨?_, hsorted, ?_⟩
        · exact sorted_map_const r i
        · intro a ha b hb
          obtain ⟨_, _, hai⟩ := List.mem_map.mp ha
          have := hge b hb
          omega

/-- A descriptor nested `n` levels deep in `Optional` wrappers, used to
exhibit the depth-guard programmer error. -/
def deepOptional : Nat → Shape
  | 0 => .primitive .str
  | n + 1 => .optional (deepOptional n)

/-- Validating any string against a descriptor at least as deep as the fuel
exhausts the depth guard. -/
lemma validateG_deepOptional (s0 : String) :
    ∀ (d n : Nat), d ≤ n →
    validateG d (.str s0) (deepOptional n) = .error ("descriptor too deep") := by
  intro d
  induction d with
  | zero => intro n _; rfl
  | succ m ih =>
    intro n hle
    cases n with
    | zero => omega
    | succ n' =>
      show (if (JsValue.str s0).isUndefined then Except.ok []
        else validateG m (.str s0) (deepOptional n')) = _
      simp only [JsValue.isUndefined, Bool.false_eq_true, if_false]
      exact ih n' (by omega)

/-- Under the loop's conditions, the JavaScript slice is a take of a drop. -/
lemma jsSlice_take_drop (a : List α) (n : Nat) (step : Int)
    (hlt : n < a.length) (hstep : 1 ≤ step) :
    jsSlice a (n : Int) ((n : Int) + step) = (a.drop n).take step.toNat := by
  unfold jsSlice
  have h0 : ¬((n : Int) < 0) := by omega
  have h1 : ¬((n : Int) + step < 0) := by omega
  simp only [h0, h1, if_false]
  have hmin : min (n : Int) (a.length : Int) = (n : Int) := by omega
  rw [hmin]
  by_cases hle : (n : Int) + step ≤ (a.length : Int)
  · have hm : min ((n : Int) + step) (a.length : Int) = (n : Int) + step := by omega
    rw [hm]
    congr 1
    omega
  · have hm : min ((n : Int) + step) (a.length : Int) = (a.length : Int) := by omega
    rw [hm]
    have hA : (a.drop ((n : Int)).toNat).length ≤ ((a.length : Int) - (n : Int)).toNat := by
      simp only [List.length_drop]
      omega
    have hB : (a.drop n).length ≤ step.toNat := by
      simp only [List.length_drop]
      omega
    rw [List.take_of_length_le hA, List.take_of_length_le hB]
    simp

/-- The slice taken by one loop iteration, glued to the rest of the array. -/
lemma take_drop_glue (a : List α) (n st : Nat) :
    (a.drop n).take st ++ a.drop (n + st) = a.drop n := by
  have h1 : a.drop (n + st) = (a.drop n).drop st := (List.drop_drop st n a).symm
  rw [h1, List.take_append_drop]

/-- Loop invariant for `batchArray` with a positive batch size: the loop
terminates when the fuel exceeds the remaining length, and appends to the
accumulator batches that are non-empty, no longer than the batch size, and
jointly equal to the unprocessed suffix. -/
lemma batchLoop_spec (a : List α) (step : Int) (hstep : 1 ≤ step) :
    ∀ (fuel : Nat) (n : Nat) (acc : List (List α)), a.length - n < fuel →
    ∃ out, batchLoop a step fuel (n : Int) acc = some out ∧
      out.flatten = acc.flatten ++ a.drop n ∧
      ∀ b ∈ out, b ∈ acc ∨ (b ≠ [] ∧ (b.length : Int) ≤ step) := by
  intro fuel
  induction fuel with
  | zero => intro n acc h; omega
  | succ f ih =>
    intro n acc h
    rw [batchLoop]
    by_cases hlt : (n : Int) < (a.length : Int)
    · simp only [hlt, if_true]
      have hlen : n < a.length := by omega
      have hcast : (n : Int) + step = ((n + step.toNat : Nat) : Int) := by
        push_cast
        omega
      have hfuel : a.length - (n + step.toNat) < f := by
        have : 1 ≤ step.toNat := by omega
        omega
      obtain ⟨out, hout, hjoin, hbatch⟩ :=
        ih (n + step.toNat) (acc ++ [jsSlice a (n : Int) ((n : Int) + step)]) hfuel
      rw [← hcast] at hout
      refine ⟨out, hout, ?_, ?_⟩
      · rw [hjoin, jsSlice_take_drop a n step hlen hstep]
        rw [List.flatten_append]
        have hsingle : ([(a.drop n).take step.toNat] : List (List α)).flatten =
            (a.drop n).take step.toNat := by simp
        rw [hsingle, List.append_assoc, take_drop_glue]
      · intro b hb
        rcases hbatch b hb with hacc | hnew
        · rcases List.mem_append.mp hacc with hacc2 | hone
          · exact Or.inl hacc2
          · refine Or.inr ?_
            have hbeq : b = jsSlice a (n : Int) ((n : Int) + step) := by
              simpa using hone
            rw [hbeq, jsSlice_take_drop a n step hlen hstep]
            constructor
            · have hlen2 : ((a.drop n).take step.toNat).length =
                  min step.toNat (a.length - n) := by simp
              intro hnil
              rw [hnil] at hlen2
              simp at hlen2
              omega
            · have hlen2 : ((a.drop n).take step.toNat).length ≤ step.toNat := by simp
              omega
        · exact Or.inr hnew
    · simp only [hlt, if_false]
      refine ⟨acc, rfl, ?_, fun b hb => Or.inl hb⟩
      have hge : a.length ≤ n := by omega
      rw [List.drop_of_length_le hge, List.append_nil]

/-- With a non-positive batch size and a non-empty array the loop never
leaves the array, whatever the fuel. -/
lemma batchLoop_none (a : List α) (step : Int) (hstep : step ≤ 0)
    (hne : 0 < a.length) :
    ∀ (fuel : Nat) (i : Int) (acc : List (List α)), i ≤ 0 →
    batchLoop a step fuel i acc = none := by
  intro fuel
  induction fuel with
  | zero => intro i acc _; rfl
  | succ f ih =>
    intro i acc hi
    rw [batchLoop]
    have hlt : i < (a.length : Int) := by omega
    simp only [hlt, if_true]
    exact ih (i + step) _ (by omega)

/-- A property whose `typeof` is anything but `undefined` is present:
`key in value` holds. -/
lemma jsIn_of_typeof (m : JsValue) (k t : String) (ht : t ≠ "undefined")
    (h : jsTypeof (getProp m k) = t) : jsIn k m = true := by
  cases m with
  | obj kvs =>
    cases hlk : lookupField kvs k with
    | none =>
      exfalso
      apply ht
      rw [← h]
      show jsTypeof ((lookupField kvs k).getD .undefined) = "undefined"
      rw [hlk]
      rfl
    | some w =>
      show (lookupField kvs k).isSome = true
      rw [hlk]
      rfl
  | str s0 => exact absurd (h.symm.trans rfl) ht
  | num n0 => exact absurd (h.symm.trans rfl) ht
  | bool b0 => exact absurd (h.symm.trans rfl) ht
  | null => exact absurd (h.symm.trans rfl) ht
  | undefined => exact absurd (h.symm.trans rfl) ht
  | arr xs => exact absurd (h.symm.trans rfl) ht

/-- A well-formed `TextMessage` is accepted by `isTextMessage`. -/
lemma isText_of_wf (m : JsValue) (h : wfTextMessage m = true) :
    isTextMessage m = true := by
  simp only [wfTextMessage, Bool.and_eq_true, beq_iff_eq] at h
  exact jsIn_of_typeof m ("text") ("string") (by decide) h.2

/-- A well-formed `ImageMessage` is accepted by `isImageMessage`. -/
lemma isImage_of_wf (m : JsValue) (h : wfImageMessage m = true) :
    isImageMessage m = true := by
  simp only [wfImageMessage, Bool.and_eq_true, beq_iff_eq] at h
  obtain ⟨⟨⟨⟨⟨_, _⟩, _⟩, hurl⟩, hw⟩, hh⟩ := h
  simp only [isImageMessage, Bool.and_eq_true, beq_iff_eq]
  exact ⟨⟨⟨⟨⟨jsIn_of_typeof m ("imageUrl") ("string") (by decide) hurl, hurl⟩,
    jsIn_of_typeof m ("width") ("number") (by decide) hw⟩, hw⟩,
    jsIn_of_typeof m ("height") ("number") (by decide) hh⟩, hh⟩

/-- A well-formed `VideoMessage` is accepted by `isVideoMessage`. -/
lemma isVideo_of_wf (m : JsValue) (h : wfVideoMessage m = true) :
    isVideoMessage m = true := by
  simp only [wfVideoMessage, Bool.and_eq_true, beq_iff_eq] at h
  obtain ⟨⟨⟨_, _⟩, hurl⟩, hd⟩ := h
  simp only [isVideoMessage, Bool.and_eq_true, beq_iff_eq]
  exact ⟨⟨⟨jsIn_of_typeof m ("videoUrl") ("string") (by decide) hurl, hurl⟩,
    jsIn_of_typeof m ("duration") ("number") (by decide) hd⟩, hd⟩

/-- The guard cascade of `createSafeNotification` produces a string
whenever some guard accepts. -/
lemma createSafe_isSome (m : JsValue)
    (h : (isTextMessage m || isImageMessage m || isVideoMessage m) = true) :
    (createSafeNotification m).isSome = true := by
  rw [createSafeNotification]
  by_cases h1 : isTextMessage m
  · simp [h1]
  · by_cases h2 : isImageMessage m
    · simp [h1, h2]
    · by_cases h3 : isVideoMessage m
      · simp [h1, h2, h3]
      · simp [h1, h2, h3] at h

/-- The end-to-end raw value of the spec's final testable property. -/
def endToEndExample : JsValue :=
  .obj [("id", .str ("42")), ("sender", .str ("Alice")),
        ("timestamp", .num 1700000000000), ("reactions", .obj [("👍", .num 3)])]

/-- C1: if `validate(v, s)` succeeds, every field required by `s` is present
in `v` with the declared run-time kind, recursively through nested objects,
mappings and sequences. -/
theorem validate_sound (v : JsValue) (s : Shape)
    (h : validate v s = .ok []) : Conforms v s :=
  validateG_sound validateLimit v s h

theorem validate_sound_witness :
    validate endToEndExample MessageSchema = .ok [] ∧
    Conforms endToEndExample MessageSchema :=
  ⟨rfl, validate_sound endToEndExample MessageSchema rfl⟩

/-- C2: for every raw input and every descriptor whose nesting fits the
depth guard, `validate` never signals a loud fault: a mismatch of untrusted
input is always returned as a violation-list value; only descriptors that
exhaust the depth guard fail loudly. -/
theorem validate_no_throw :
    (∀ (v : JsValue) (s : Shape) (d : Nat), sizeOf s < d →
      ∃ r, validateG d v s = .ok r) ∧
    (∀ (v : JsValue) (s : Shape), sizeOf s < validateLimit →
      ∃ r, validate v s = .ok r) ∧
    validate (.str ("a")) (deepOptional validateLimit) =
      .error ("descriptor too deep") := by
  refine ⟨fun v s d h => validateG_total d v s h,
    fun v s h => validateG_total validateLimit v s h, ?_⟩
  exact validateG_deepOptional ("a") validateLimit validateLimit (Nat.le_refl _)

theorem validate_no_throw_witness :
    sizeOf MessageSchema < validateLimit ∧
    ∃ r, validate JsValue.null MessageSchema = .ok r :=
  ⟨by decide, validate_no_throw.2.1 JsValue.null MessageSchema (by decide)⟩

/-- C3: an object supplying all declared fields with the declared kinds
validates even in the presence of additional undeclared keys: appending
entries with undeclared keys never changes the outcome, and the spec's
example with an `extra` key is accepted by `MessageSchema`. -/
theorem validate_extra_keys_ignored :
    (∀ (kvs extras : List (String × JsValue)) (fields : List (String × Shape)),
      (∀ p ∈ extras, p.1 ∉ fields.map Prod.fst) →
      validate (.obj (kvs ++ extras)) (.object fields) =
        validate (.obj kvs) (.object fields)) ∧
    validate (.obj [("id", .str ("1")), ("sender", .str ("A")),
      ("timestamp", .num 5), ("extra", .str ("ignored"))]) MessageSchema = .ok [] := by
  constructor
  · intro kvs extras fields hfresh
    show fieldsCheck (validateG (validateLimit - 1)) (kvs ++ extras) fields =
      fieldsCheck (validateG (validateLimit - 1)) kvs fields
    exact fieldsCheck_extras _ _ _ _ hfresh
  · rfl

theorem validate_extra_keys_ignored_witness :
    (∀ p ∈ ([("extra", JsValue.str ("ignored"))] : List (String × JsValue)),
      p.1 ∉ ([("id", Shape.primitive .str), ("sender", .primitive .str),
        ("text", .optional (.primitive .str)), ("timestamp", .primitive .num),
        ("reactions", .optional (.mapping (.primitive .str) (.primitive .num))),
        ("image", .optional ImageSchema),
        ("video", .optional VideoSchema)] : List (String × Shape)).map Prod.fst) ∧
    validate (.obj ([("id", .str ("1")), ("sender", .str ("A")), ("timestamp", .num 5)] ++
        [("extra", JsValue.str ("ignored"))]))
      (.object [("id", Shape.primitive .str), ("sender", .primitive .str),
        ("text", .optional (.primitive .str)), ("timestamp", .primitive .num),
        ("reactions", .optional (.mapping (.primitive .str) (.primitive .num))),
        ("image", .optional ImageSchema),
        ("video", .optional VideoSchema)]) =
      validate (.obj [("id", .str ("1")), ("sender", .str ("A")), ("timestamp", .num 5)])
      (.object [("id", Shape.primitive .str), ("sender", .primitive .str),
        ("text", .optional (.primitive .str)), ("timestamp", .primitive .num),
        ("reactions", .optional (.mapping (.primitive .str) (.primitive .num))),
        ("image", .optional ImageSchema),
        ("video", .optional VideoSchema)]) :=
  ⟨by decide, validate_extra_keys_ignored.1 _ _ _ (by decide)⟩

/-- C4: a value structurally matching more than one union member is
classified as the earliest-declared matching member: the guard cascade
checks text before image, so `{text: "hi", imageUrl: "a.jpg"}` classifies
as `text`, not `image`, and `createSafeNotification` renders the text
branch for any value matching both guards. -/
theorem classify_earliest_member_wins :
    (∀ m : JsValue, isTextMessage m = true → isImageMessage m = true →
      classifyMessage m = some ("text") ∧
      createSafeNotification m = some (jsDisplay (getProp m ("sender")) ++
        " texted \"" ++ jsDisplay (getProp m ("text")) ++ "\"")) ∧
    classifyMessage (.obj [("text", .str ("hi")), ("imageUrl", .str ("a.jpg"))]) =
      some ("text") := by
  constructor
  · intro m h1 _
    constructor
    · simp [classifyMessage, h1]
    · simp [createSafeNotification, h1]
  · rfl

theorem classify_earliest_member_wins_witness :
    isTextMessage (.obj [("text", .str ("hi")), ("imageUrl", .str ("a.jpg")),
      ("width", .num 3), ("height", .num 4)]) = true ∧
    isImageMessage (.obj [("text", .str ("hi")), ("imageUrl", .str ("a.jpg")),
      ("width", .num 3), ("height", .num 4)]) = true ∧
    classifyMessage (.obj [("text", .str ("hi")), ("imageUrl", .str ("a.jpg")),
      ("width", .num 3), ("height", .num 4)]) = some ("text") :=
  ⟨rfl, rfl, (classify_earliest_member_wins.1
    (.obj [("text", .str ("hi")), ("imageUrl", .str ("a.jpg")),
      ("width", .num 3), ("height", .num 4)]) rfl rfl).1⟩

/-- C5: sequence validation does not short-circuit: every rejected element
contributes a violation annotated with its index, indices appear in
non-decreasing order, and the spec's example reports exactly the two
violations at indices 1 and 3, in that order. -/
theorem sequence_reports_all_violations :
    (∀ (e : Shape) (xs : List JsValue) (l : List Violation),
      sizeOf e + 1 < validateLimit →
      validate (.arr xs) (.sequence e) = .ok l →
      (∀ (j : Nat) (hj : j < xs.length) (lj : List Violation),
        validate (xs.get ⟨j, hj⟩) e = .ok lj → lj ≠ [] →
        ∃ w ∈ l, headIdx? w = some j) ∧
      (l.filterMap headIdx?).Sorted (· ≤ ·)) ∧
    validate (.arr [.num 1, .str ("x"), .num 3, .str ("y")])
        (.sequence (.primitive .num)) =
      .ok [⟨[.idx 1], "number", "string"⟩, ⟨[.idx 3], "number", "string"⟩] := by
  constructor
  · intro e xs l hsz hval
    have hval' : elemsCheck (validateG (validateLimit - 1)) e 0 xs = .ok l := hval
    constructor
    · intro j hj lj hrecj hne
      have hrec' : validateG (validateLimit - 1) (xs.get ⟨j, hj⟩) e = .ok lj := by
        rw [validateG_fuel (validateLimit - 1) validateLimit (xs.get ⟨j, hj⟩) e
          (by omega) (by omega)]
        exact hrecj
      have := elemsCheck_reports _ e xs 0 l hval' j hj lj hrec' hne
      simpa using this
    · exact (elemsCheck_sorted _ e xs 0 l hval').2
  · rfl

theorem sequence_reports_all_violations_witness :
    sizeOf (Shape.primitive PrimKind.num) + 1 < validateLimit ∧
    ∃ w ∈ [(⟨[.idx 1], "number", "string"⟩ : Violation),
           ⟨[.idx 3], "number", "string"⟩], headIdx? w = some 3 :=
  ⟨by decide,
    ((sequence_reports_all_violations.1 (Shape.primitive PrimKind.num)
      [.num 1, .str ("x"), .num 3, .str ("y")]
      [⟨[.idx 1], "number", "string"⟩, ⟨[.idx 3], "number", "string"⟩]
      (by decide) rfl).1 3 (by decide)
      [⟨[], "number", "string"⟩] rfl (by decide))⟩

/-- C6: primitive validation succeeds exactly when the run-time kind equals
the declared kind, with no implicit coercion: in particular the
numeric-looking string is rejected by the number descriptor. -/
theorem primitive_no_coercion :
    (∀ (v : JsValue) (k : PrimKind),
      validate v (.primitive k) = .ok [] ↔ kindOf v = primName k) ∧
    validate (.str ("1700000000000")) (.primitive .num) =
      .ok [⟨[], "number", "string"⟩] := by
  constructor
  · intro v k
    have hv : validate v (.primitive k) =
        .ok (if kindOf v = primName k then [] else [⟨[], primName k, kindOf v⟩]) := rfl
    rw [hv]
    by_cases hk : kindOf v = primName k
    · simp [hk]
    · simp [hk]
  · rfl

/-- C7: validation is deterministic and idempotent: in this embedding the
engine is a pure function of the raw value and the descriptor, so a second
call on the same inputs is the very same term — same outcome and identical
violation ordering. -/
theorem validate_deterministic (v : JsValue) (s : Shape) :
    validate v s = validate v s := rfl

/-- C8: the output shape of `sendMessage` is uniquely determined by the
input variant — the response tag always equals the message tag — and the
`switch` is exhaustive over exactly the three declared tags. -/
theorem sendMessage_type_determined (id : String) (ts : Int)
    (m : Overloads.Message) :
    (Overloads.sendMessage id ts m).rtype = m.mtype ∧
    (m.mtype = "text" ∨ m.mtype = "image" ∨ m.mtype = "video") := by
  cases m <;>
    simp [Overloads.sendMessage, Overloads.Response.rtype, Overloads.Message.mtype]

/-- C9: every member of the `Message` union with all required fields
present and of the declared kinds is accepted by at least one of the
property-presence guards, so `createSafeNotification` returns a string and
its final throw is unreachable under that precondition. -/
theorem guards_cover_message_union (m : JsValue)
    (h : (wfTextMessage m || wfImageMessage m || wfVideoMessage m) = true) :
    (isTextMessage m || isImageMessage m || isVideoMessage m) = true ∧
    (createSafeNotification m).isSome = true := by
  have hguard : (isTextMessage m || isImageMessage m || isVideoMessage m) = true := by
    rcases Bool.or_eq_true_iff.mp h with h12 | h3
    · rcases Bool.or_eq_true_iff.mp h12 with h1 | h2
      · simp [isText_of_wf m h1]
      · simp [isImage_of_wf m h2]
    · simp [isVideo_of_wf m h3]
  exact ⟨hguard, createSafe_isSome m hguard⟩

theorem guards_cover_message_union_witness :
    (wfTextMessage (.obj [("id", .str ("1")), ("sender", .str ("Alice")),
      ("timestamp", .num 5), ("text", .str ("hey"))]) ||
     wfImageMessage (.obj [("id", .str ("1")), ("sender", .str ("Alice")),
      ("timestamp", .num 5), ("text", .str ("hey"))]) ||
     wfVideoMessage (.obj [("id", .str ("1")), ("sender", .str ("Alice")),
      ("timestamp", .num 5), ("text", .str ("hey"))])) = true ∧
    (createSafeNotification (.obj [("id", .str ("1")), ("sender", .str ("Alice")),
      ("timestamp", .num 5), ("text", .str ("hey"))])).isSome = true :=
  ⟨rfl, (guards_cover_message_union (.obj [("id", .str ("1")), ("sender", .str ("Alice")),
      ("timestamp", .num 5), ("text", .str ("hey"))]) rfl).2⟩

/-- C10: for every array and integer batch size at least 1, `batchArray`
terminates with batches that are non-empty, at most the batch size long,
and concatenate to the input; with a non-positive batch size and non-empty
input the loop never terminates, so the precondition is required. -/
theorem batchArray_correct (α : Type) (a : List α) (maxBatchSize : Int) :
    (1 ≤ maxBatchSize →
      ∃ fuel out, batchArray a maxBatchSize fuel = some out ∧
        out.flatten = a ∧
        ∀ b ∈ out, b ≠ [] ∧ (b.length : Int) ≤ maxBatchSize) ∧
    (maxBatchSize ≤ 0 → a ≠ [] →
      ∀ fuel, batchArray a maxBatchSize fuel = none) := by
  constructor
  · intro hstep
    obtain ⟨out, hout, hjoin, hbatch⟩ :=
      batchLoop_spec a maxBatchSize hstep (a.length + 1) 0 [] (by omega)
    refine ⟨a.length + 1, out, ?_, ?_, ?_⟩
    · have h0 : ((0 : Nat) : Int) = 0 := by norm_num
      rw [h0] at hout
      exact hout
    · simpa using hjoin
    · intro b hb
      rcases hbatch b hb with habs | hgood
      · cases habs
      · exact hgood
  · intro hstep hne fuel
    exact batchLoop_none a maxBatchSize hstep (List.length_pos.mpr hne) fuel 0 []
      (Int.le_refl 0)

theorem batchArray_correct_witness :
    ((1 : Int) ≤ 3 ∧
      ∃ fuel out, batchArray ([1,2,3,4,5,6,7,8,9,10] : List Nat) 3 fuel = some out ∧
        out.flatten = [1,2,3,4,5,6,7,8,9,10] ∧
        ∀ b ∈ out, b ≠ [] ∧ (b.length : Int) ≤ 3) ∧
    batchArray ([1] : List Nat) 0 5 = none :=
  ⟨⟨by decide, (batchArray_correct Nat [1,2,3,4,5,6,7,8,9,10] 3).1 (by decide)⟩,
   (batchArray_correct Nat [1] 0).2 (by decide) (by decide) 5⟩
